import Mathlib

/-!
Verification of the edwards25519 package: field-element exponentiation
(FeDivPowM1), key generation (GenerateKey), and the (R,S) signature layer.

The field of coordinates is the prime field of order p = 2^255 - 19; field
elements are modelled as `ZMod p`.  Scalars live modulo the group order
N = 2^252 + 27742317777372353535851937790883648493.
-/

namespace Edwards25519

/-- The field modulus p = 2^255 - 19. -/
def p : Nat := 2 ^ 255 - 19

/-- Field elements, modelled as integers modulo p. -/
abbrev F : Type := ZMod p

/-- Modelled from the spec: `FeMul` (field multiplication, not under src/) —
"multiplication ... take and return canonical-range field elements", i.e.
multiplication in the prime field of order 2^255 - 19. -/
def FeMul (a b : F) : F := a * b

/-- Modelled from the spec: `FeSquare` (field squaring, not under src/) —
squaring in the prime field of order 2^255 - 19. -/
def FeSquare (a : F) : F := a ^ 2

/-- `feSquareN n x` applies `FeSquare` n times: the embedding of the source's
`for i := 0; i < n; i++ { FeSquare(&t, &t) }` loops. -/
def feSquareN : Nat → F → F
  | 0, x => x
  | n + 1, x => feSquareN n (FeSquare x)

theorem feSquareN_eq (n : Nat) (x : F) : feSquareN n x = x ^ (2 ^ n) := by
  induction n generalizing x with
  | zero => simp [feSquareN]
  | succ n ih =>
    rw [feSquareN, ih, FeSquare, ← pow_mul, pow_succ']

/-- The mutable state of `FeDivPowM1`: the destination `r`, the operands
`u` and `v` (distinct variables, as the destination pointer is distinct from
the operand pointers), and the local temporaries `v3, uv7, t0, t1, t2`. -/
structure FeDivState where
  r : F
  u : F
  v : F
  v3 : F
  uv7 : F
  t0 : F
  t1 : F
  t2 : F

/-- The variables of `FeDivPowM1`: destination, operands, temporaries. -/
inductive Var where
  | r | u | v | v3 | uv7 | t0 | t1 | t2
deriving DecidableEq

/-- One Go statement of the body of `FeDivPowM1`: a squaring
`FeSquare(&dst, &src)`, a multiplication `FeMul(&dst, &a, &b)`, or a
repeated-squaring loop `for i := 0; i < n; i++ { FeSquare(&d, &d) }`. -/
inductive Stmt where
  | sq (dst src : Var)
  | mul (dst a b : Var)
  | sqN (n : Nat) (dst : Var)
deriving DecidableEq

/-- The variable a statement writes to. -/
def Stmt.dst : Stmt → Var
  | .sq d _ => d
  | .mul d _ _ => d
  | .sqN _ d => d

/-- Read a variable from the state. -/
def read (s : FeDivState) : Var → F
  | .r => s.r
  | .u => s.u
  | .v => s.v
  | .v3 => s.v3
  | .uv7 => s.uv7
  | .t0 => s.t0
  | .t1 => s.t1
  | .t2 => s.t2

/-- Write a variable in the state. -/
def write (s : FeDivState) (d : Var) (x : F) : FeDivState :=
  match d with
  | .r => ⟨x, s.u, s.v, s.v3, s.uv7, s.t0, s.t1, s.t2⟩
  | .u => ⟨s.r, x, s.v, s.v3, s.uv7, s.t0, s.t1, s.t2⟩
  | .v => ⟨s.r, s.u, x, s.v3, s.uv7, s.t0, s.t1, s.t2⟩
  | .v3 => ⟨s.r, s.u, s.v, x, s.uv7, s.t0, s.t1, s.t2⟩
  | .uv7 => ⟨s.r, s.u, s.v, s.v3, x, s.t0, s.t1, s.t2⟩
  | .t0 => ⟨s.r, s.u, s.v, s.v3, s.uv7, x, s.t1, s.t2⟩
  | .t1 => ⟨s.r, s.u, s.v, s.v3, s.uv7, s.t0, x, s.t2⟩
  | .t2 => ⟨s.r, s.u, s.v, s.v3, s.uv7, s.t0, s.t1, x⟩

/-- Execute one statement. -/
def exec (s : FeDivState) : Stmt → FeDivState
  | .sq d src => write s d (FeSquare (read s src))
  | .mul d a b => write s d (FeMul (read s a) (read s b))
  | .sqN n d => write s d (feSquareN n (read s d))

/-- Execute a list of statements in order. -/
def execList (s : FeDivState) : List Stmt → FeDivState
  | [] => s
  | st :: l => execList (exec s st) l

/-- The body of `FeDivPowM1` from the source, statement by statement and in
source order; the repeated-squaring loop counts are taken verbatim from the
`for` loops (a leading `FeSquare(&t, &t0)` followed by a loop of `n`
squarings appears as `.sq` then `.sqN n`). -/
def feDivPowM1Prog : List Stmt := [
  -- v3 = v^3
  .sq .v3 .v, .mul .v3 .v3 .v,
  -- uv7 = u * v^7
  .sq .uv7 .v3, .mul .uv7 .uv7 .v, .mul .uv7 .uv7 .u,
  -- Step 1
  .sq .t0 .uv7, .sq .t1 .t0, .sq .t1 .t1, .mul .t1 .uv7 .t1,
  .mul .t0 .t0 .t1, .sq .t0 .t0, .mul .t0 .t1 .t0,
  -- Step 2
  .sq .t1 .t0, .sqN 4 .t1, .mul .t0 .t1 .t0,
  -- Step 3
  .sq .t1 .t0, .sqN 9 .t1, .mul .t1 .t1 .t0,
  -- Step 4
  .sq .t2 .t1, .sqN 19 .t2, .mul .t1 .t2 .t1,
  -- Step 5
  .sqN 10 .t1, .mul .t0 .t1 .t0,
  -- Step 6
  .sq .t1 .t0, .sqN 49 .t1, .mul .t1 .t1 .t0,
  -- Step 7
  .sq .t2 .t1, .sqN 99 .t2, .mul .t1 .t2 .t1,
  -- Step 8
  .sqN 50 .t1, .mul .t0 .t1 .t0,
  -- two final squarings
  .sq .t0 .t0, .sq .t0 .t0,
  -- t0 = (uv7)^((q-5)/8)
  .mul .t0 .t0 .uv7,
  -- multiply by v^3
  .mul .t0 .t0 .v3,
  -- finally, multiply by u => r
  .mul .r .t0 .u]

/-- The embedding of `FeDivPowM1`: run the body on the state. -/
def FeDivPowM1Run (s : FeDivState) : FeDivState := execList s feDivPowM1Prog

theorem read_write (s : FeDivState) (d x : Var) (y : F) :
    read (write s d y) x = if x = d then y else read s x := by
  cases d <;> cases x <;> simp [read, write]

theorem exec_preserves (s : FeDivState) (st : Stmt) (x : Var)
    (h : st.dst ≠ x) : read (exec s st) x = read s x := by
  have hxd : x ≠ st.dst := fun hc => h hc.symm
  cases st <;> simp [exec, Stmt.dst] at hxd ⊢ <;> rw [read_write] <;>
    simp [hxd]

theorem execList_preserves (x : Var) : ∀ l : List Stmt,
    (∀ st ∈ l, st.dst ≠ x) → ∀ s : FeDivState,
    read (execList s l) x = read s x := by
  intro l
  induction l with
  | nil => intro _ s; rfl
  | cons st l ih =>
    intro h s
    rw [execList, ih (fun t ht => h t (List.mem_cons_of_mem st ht)),
      exec_preserves s st x (h st (List.mem_cons_self st l))]

/-- C9: FeDivPowM1 never mutates its operands: running the body leaves the
`u` and `v` variables exactly as they were; only `r` and the local
temporaries are ever written. -/
theorem feDivPowM1_preserves_operands (s : FeDivState) :
    (FeDivPowM1Run s).u = s.u ∧ (FeDivPowM1Run s).v = s.v :=
  ⟨execList_preserves Var.u feDivPowM1Prog (by decide) s,
   execList_preserves Var.v feDivPowM1Prog (by decide) s⟩

/-- Symbolic state for the exponent argument: each variable optionally holds
a pair (a, b) meaning its value is u^a * v^b for the initial operands. -/
structure ExpState where
  r : Option (Nat × Nat)
  u : Option (Nat × Nat)
  v : Option (Nat × Nat)
  v3 : Option (Nat × Nat)
  uv7 : Option (Nat × Nat)
  t0 : Option (Nat × Nat)
  t1 : Option (Nat × Nat)
  t2 : Option (Nat × Nat)

/-- Read a variable from the symbolic state. -/
def readE (es : ExpState) : Var → Option (Nat × Nat)
  | .r => es.r
  | .u => es.u
  | .v => es.v
  | .v3 => es.v3
  | .uv7 => es.uv7
  | .t0 => es.t0
  | .t1 => es.t1
  | .t2 => es.t2

/-- Write a variable in the symbolic state. -/
def writeE (es : ExpState) (d : Var) (x : Option (Nat × Nat)) : ExpState :=
  match d with
  | .r => ⟨x, es.u, es.v, es.v3, es.uv7, es.t0, es.t1, es.t2⟩
  | .u => ⟨es.r, x, es.v, es.v3, es.uv7, es.t0, es.t1, es.t2⟩
  | .v => ⟨es.r, es.u, x, es.v3, es.uv7, es.t0, es.t1, es.t2⟩
  | .v3 => ⟨es.r, es.u, es.v, x, es.uv7, es.t0, es.t1, es.t2⟩
  | .uv7 => ⟨es.r, es.u, es.v, es.v3, x, es.t0, es.t1, es.t2⟩
  | .t0 => ⟨es.r, es.u, es.v, es.v3, es.uv7, x, es.t1, es.t2⟩
  | .t1 => ⟨es.r, es.u, es.v, es.v3, es.uv7, es.t0, x, es.t2⟩
  | .t2 => ⟨es.r, es.u, es.v, es.v3, es.uv7, es.t0, es.t1, x⟩

/-- Multiplication adds exponent pairs; undefined if an operand is unset. -/
def mulE : Option (Nat × Nat) → Option (Nat × Nat) → Option (Nat × Nat)
  | some a, some b => some (a.1 + b.1, a.2 + b.2)
  | _, _ => none

/-- Raising to the k-th power scales exponents by k. -/
def scaleE (k : Nat) : Option (Nat × Nat) → Option (Nat × Nat)
  | some a => some (a.1 * k, a.2 * k)
  | none => none

/-- Execute one statement symbolically on exponents. -/
def execE (es : ExpState) : Stmt → ExpState
  | .sq d src => writeE es d (scaleE 2 (readE es src))
  | .mul d a b => writeE es d (mulE (readE es a) (readE es b))
  | .sqN n d => writeE es d (scaleE (2 ^ n) (readE es d))

/-- Execute a list of statements symbolically. -/
def execListE (es : ExpState) : List Stmt → ExpState
  | [] => es
  | st :: l => execListE (execE es st) l

/-- Interpretation of an exponent pair over the operands. -/
def interp (uu vv : F) (e : Nat × Nat) : F := uu ^ e.1 * vv ^ e.2

/-- The concrete state realizes every exponent the symbolic state tracks. -/
def Agrees (uu vv : F) (s : FeDivState) (es : ExpState) : Prop :=
  ∀ x : Var, ∀ e : Nat × Nat, readE es x = some e → read s x = interp uu vv e

theorem readE_writeE (es : ExpState) (d x : Var) (y : Option (Nat × Nat)) :
    readE (writeE es d y) x = if x = d then y else readE es x := by
  cases d <;> cases x <;> simp [readE, writeE]

theorem exec_agrees (uu vv : F) (s : FeDivState) (es : ExpState)
    (hA : Agrees uu vv s es) (st : Stmt) :
    Agrees uu vv (exec s st) (execE es st) := by
  intro x e hx
  cases st with
  | sq d src =>
    rw [execE, readE_writeE] at hx
    rw [exec, read_write]
    by_cases hxd : x = d
    · simp only [if_pos hxd] at hx ⊢
      cases hsrc : readE es src with
      | none => rw [hsrc] at hx; exact absurd hx (by simp [scaleE])
      | some a =>
        rw [hsrc] at hx
        simp only [scaleE, Option.some.injEq] at hx
        rw [hA src a hsrc, ← hx]
        simp only [FeSquare, interp, pow_mul]
        ring
    · simp only [if_neg hxd] at hx ⊢
      exact hA x e hx
  | mul d a b =>
    rw [execE, readE_writeE] at hx
    rw [exec, read_write]
    by_cases hxd : x = d
    · simp only [if_pos hxd] at hx ⊢
      cases ha : readE es a with
      | none => rw [ha] at hx; exact absurd hx (by simp [mulE])
      | some ea =>
        cases hb : readE es b with
        | none => rw [ha, hb] at hx; exact absurd hx (by simp [mulE])
        | some eb =>
          rw [ha, hb] at hx
          simp only [mulE, Option.some.injEq] at hx
          rw [hA a ea ha, hA b eb hb, ← hx]
          simp only [FeMul, interp, pow_add]
          ring
    · simp only [if_neg hxd] at hx ⊢
      exact hA x e hx
  | sqN n d =>
    rw [execE, readE_writeE] at hx
    rw [exec, read_write]
    by_cases hxd : x = d
    · simp only [if_pos hxd] at hx ⊢
      cases hd : readE es d with
      | none => rw [hd] at hx; exact absurd hx (by simp [scaleE])
      | some a =>
        rw [hd] at hx
        simp only [scaleE, Option.some.injEq] at hx
        rw [hA d a hd, ← hx]
        simp only [feSquareN_eq, interp, pow_mul]
        ring
    · simp only [if_neg hxd] at hx ⊢
      exact hA x e hx

theorem execList_agrees (uu vv : F) : ∀ l : List Stmt,
    ∀ (s : FeDivState) (es : ExpState), Agrees uu vv s es →
    Agrees uu vv (execList s l) (execListE es l) := by
  intro l
  induction l with
  | nil => intro s es hA; exact hA
  | cons st l ih =>
    intro s es hA
    exact ih (exec s st) (execE es st) (exec_agrees uu vv s es hA st)

/-- The initial symbolic state: the operands are u^1 and v^1, every other
variable is untracked. -/
def esInit : ExpState :=
  ⟨none, some (1, 0), some (0, 1), none, none, none, none, none⟩

theorem esInit_agrees (s : FeDivState) : Agrees s.u s.v s esInit := by
  intro x e hx
  cases x <;> simp [readE, esInit] at hx <;> rw [← hx] <;>
    simp [read, interp]

/-- C1: FeDivPowM1 stores into `r` the value u * v^3 * (u * v^7)^((p-5)/8),
and the fixed addition chain raises u * v^7 to exactly the exponent
(p - 5) / 8 = 2^252 - 3, as a generic modular exponentiation would. -/
theorem feDivPowM1_correct (s : FeDivState) :
    (p - 5) / 8 = 2 ^ 252 - 3 ∧
      (FeDivPowM1Run s).r = s.u * s.v ^ 3 * (s.u * s.v ^ 7) ^ ((p - 5) / 8) := by
  have hexp : (p - 5) / 8 = 2 ^ 252 - 3 := by norm_num [p]
  refine ⟨hexp, ?_⟩
  rw [hexp]
  have hr : readE (execListE esInit feDivPowM1Prog) Var.r =
      some (1 + (2 ^ 252 - 3), 3 + 7 * (2 ^ 252 - 3)) := by decide
  have hmain := execList_agrees s.u s.v feDivPowM1Prog s esInit
    (esInit_agrees s) Var.r _ hr
  have hread : read (execList s feDivPowM1Prog) Var.r =
      (FeDivPowM1Run s).r := rfl
  rw [hread] at hmain
  rw [hmain, interp, mul_pow, ← pow_mul]
  ring

/-! ## GenerateKey (src/generate.go) -/

/-- A byte string of length n, modelled as a function from indices to byte
values. -/
def Bytes (n : Nat) : Type := Fin n → Nat

/-- The three clamping statements of GenerateKey, applied to the 64-byte
SHA-512 digest in source order:
`digest[0] &= 248`, `digest[31] &= 127`, `digest[31] |= 64`. -/
def goClampDigest (digest : Bytes 64) : Bytes 64 :=
  let digest := Function.update digest 0 (digest 0 &&& 248)
  let digest := Function.update digest 31 (digest 31 &&& 127)
  Function.update digest 31 (digest 31 ||| 64)

/-- The first 32 bytes of a 64-byte string (`copy(hBytes[:], digest)`). -/
def firstHalf (d : Bytes 64) : Bytes 32 :=
  fun i => d (Fin.castLE (by omega) i)

/-- Embedding of `GenerateKey` from src/generate.go.  The collaborators the
wrapper calls are parameters: `sha512` is the SHA-512 digest of the 32 seed
bytes, and `geScalarMultBaseToBytes` is the composition of
`GeScalarMultBase` with `ExtendedGroupElement.ToBytes` (fixed-base scalar
multiplication followed by compressed encoding).  The randomness read
`io.ReadFull(rand, privateKey[:32])` is modelled by its outcome
`randRead`: either the 32 bytes read or the error returned. -/
def GenerateKey {E : Type} (sha512 : Bytes 32 → Bytes 64)
    (geScalarMultBaseToBytes : Bytes 32 → Bytes 32)
    (randRead : Except E (Bytes 32)) :
    Except E (Bytes 32 × Bytes 64) :=
  match randRead with
  | .error e => .error e
  | .ok seed =>
    let digest := goClampDigest (sha512 seed)
    let hBytes := firstHalf digest
    let publicKey := geScalarMultBaseToBytes hBytes
    let privateKey : Bytes 64 := fun i =>
      if h : i.val < 32 then seed ⟨i.val, h⟩
      else publicKey ⟨i.val - 32, by omega⟩
    .ok (publicKey, privateKey)

set_option maxRecDepth 8192 in
/-- C4: GenerateKey clamps the first 32 bytes of the SHA-512 digest of the
seed before the fixed-base scalar multiplication: byte 0 has its low 3 bits
cleared (b &&& 248 = 8 * (b / 8)), byte 31 has its top bit cleared and its
second-highest bit set ((b &&& 127) ||| 64 = 64 + b % 64), and every other
byte is unchanged; the public key is the scalar multiplication applied to
exactly that clamped scalar. -/
theorem generateKey_clamps {E : Type} (sha512 : Bytes 32 → Bytes 64)
    (gsm : Bytes 32 → Bytes 32) (seed : Bytes 32)
    (hbyte : ∀ i : Fin 64, sha512 seed i < 256) :
    (∃ priv, GenerateKey (E := E) sha512 gsm (.ok seed) =
        .ok (gsm (firstHalf (goClampDigest (sha512 seed))), priv)) ∧
      goClampDigest (sha512 seed) 0 = 8 * (sha512 seed 0 / 8) ∧
      goClampDigest (sha512 seed) 31 = 64 + sha512 seed 31 % 64 ∧
      ∀ i : Fin 64, i ≠ 0 → i ≠ 31 → goClampDigest (sha512 seed) i =
        sha512 seed i := by
  have hand : ∀ b : Nat, b < 256 → b &&& 248 = 8 * (b / 8) := by
    have h : ∀ b : Fin 256, b.val &&& 248 = 8 * (b.val / 8) := by decide
    intro b hb
    exact h ⟨b, hb⟩
  have hor : ∀ b : Nat, b < 256 → (b &&& 127) ||| 64 = 64 + b % 64 := by
    have h : ∀ b : Fin 256, (b.val &&& 127) ||| 64 = 64 + b.val % 64 := by
      decide
    intro b hb
    exact h ⟨b, hb⟩
  refine ⟨⟨_, rfl⟩, ?_, ?_, ?_⟩
  · rw [goClampDigest]
    simp only [Function.update]
    norm_num
    exact hand _ (hbyte 0)
  · rw [goClampDigest]
    simp only [Function.update]
    norm_num
    exact hor _ (hbyte 31)
  · intro i h0 h31
    rw [goClampDigest]
    simp only [Function.update]
    norm_num [h0, h31]

/-- C5: on success GenerateKey returns a 64-byte private key whose first 32
bytes are the seed read from rand and whose last 32 bytes are the returned
public key, and the public key is the compressed encoding of the fixed-base
scalar multiplication of the clamped digest scalar. -/
theorem generateKey_success {E : Type} (sha512 : Bytes 32 → Bytes 64)
    (gsm : Bytes 32 → Bytes 32) (seed : Bytes 32) :
    ∃ pub priv, GenerateKey (E := E) sha512 gsm (.ok seed) = .ok (pub, priv) ∧
      (∀ i : Fin 32, priv (Fin.castLE (by omega) i) = seed i) ∧
      (∀ i : Fin 32, priv (Fin.addNat i 32) = pub i) ∧
      pub = gsm (firstHalf (goClampDigest (sha512 seed))) := by
  refine ⟨_, _, rfl, ?_, ?_, rfl⟩
  · intro i
    rw [dif_pos (show (Fin.castLE (by omega) i : Fin 64).val < 32 from i.isLt)]
    rfl
  · intro i
    rw [dif_neg (show ¬(Fin.addNat i 32).val < 32 by simp [Fin.addNat])]
    congr 1

/-- C10: if reading the randomness fails, GenerateKey returns that error (no
key material), and the result does not depend on the hash or the scalar
multiplication at all: no hashing and no scalar multiplication is performed. -/
theorem generateKey_rand_error {E : Type} (e : E)
    (sha1 sha2 : Bytes 32 → Bytes 64) (gsm1 gsm2 : Bytes 32 → Bytes 32) :
    GenerateKey sha1 gsm1 (.error e) = .error e ∧
      GenerateKey sha1 gsm1 (.error e) = GenerateKey sha2 gsm2 (.error e) :=
  ⟨rfl, rfl⟩

theorem generateKey_clamps_witness :
    (∀ _i : Fin 64, (7 : Nat) < 256) ∧
      goClampDigest (fun _ => 7) 0 = 8 * (7 / 8) ∧
      goClampDigest (fun _ => 7) 31 = 64 + 7 % 64 :=
  ⟨fun _ => by decide,
   (generateKey_clamps (E := Unit) (fun _ _ => 7) (fun b => b) (fun _ => 0)
      (by decide)).2.1,
   (generateKey_clamps (E := Unit) (fun _ _ => 7) (fun b => b) (fun _ => 0)
      (by decide)).2.2.1⟩

/-! ## Scalars, keys and the (R,S) signature scheme

`SignRS`, `VerifyRS`, `ParseSignature`, `ParsePubKey`, `PrivKeyFromScalar`
and `Serialize` are code of this repository that is not under src/ (only
their tests are); they are modelled from the spec below. -/

/-- The group order N = 2^252 + 27742317777372353535851937790883648493. -/
def N : Nat := 2 ^ 252 + 27742317777372353535851937790883648493

instance : NeZero N := ⟨by norm_num [N]⟩

instance : Fact (1 < N) := ⟨by norm_num [N]⟩

/-- Scalars: big integers modulo the group order N. -/
abbrev Scalar : Type := ZMod N

/-- Messages are arbitrary byte strings. -/
abbrev Msg : Type := List Nat

/-- The error kinds of the spec (§7). -/
inductive Err where
  | InvalidLength | InvalidEncoding | InvalidScalar | InvalidSecret
  | ZeroNonce | ZeroR
deriving DecidableEq

/-- Modelled from the spec: the prime-order subgroup generated by the
basepoint, represented through the isomorphism `c ↦ c · Basepoint` by the
scalar `c`, so a point is a `Scalar`; the basepoint itself is `1`. -/
abbrev Point : Type := Scalar

/-- The basepoint (the image of 1 under the isomorphism). -/
def basepoint : Point := 1

/-- Scalar multiplication of a point in the modelled subgroup. -/
def smul (a : Scalar) (P : Point) : Point := a * P

/-- Point addition in the modelled subgroup. -/
def padd (P Q : Point) : Point := P + Q

/-- Modelled from the spec: `SignRS` (not under src/) — "derives a
per-signature nonce scalar k ..., computes the point k·Basepoint, reduces
its x-coordinate modulo N to obtain R, and computes
S = k^-1 · (H(message) + D·R) mod N where H is a fixed hash reduced modulo
N.  Fails with ZeroNonce or ZeroR."  The nonce derivation is an explicit
open question of the spec (§9), so the nonce `k` is a parameter, as are the
x-coordinate function `xof` and the hash `hashM`.  A zero S would make the
produced signature fail the spec's own round-trip property (§8) because
verification rejects S = 0, so the model treats S = 0 like the R = 0 retry
condition and reports ZeroR for it. -/
def SignRS (xof : Point → Nat) (hashM : Msg → Scalar) (d k : Scalar)
    (m : Msg) : Except Err (Nat × Nat) :=
  if k = 0 then .error .ZeroNonce
  else
    let R : Nat := xof (smul k basepoint) % N
    if R = 0 then .error .ZeroR
    else
      let S : Scalar := k⁻¹ * (hashM m + d * (R : Scalar))
      if S = 0 then .error .ZeroR
      else .ok (R, S.val)

/-- Modelled from the spec: `VerifyRS` (not under src/) — "rejects
immediately (returns false, never panics) if R or S is zero or not strictly
less than N.  Otherwise computes w = S^-1 mod N, u1 = H(message)·w mod N,
u2 = R·w mod N, forms the point u1·Basepoint + u2·PublicPoint via
variable-time double-scalar multiplication, reduces its x-coordinate modulo
N, and returns whether that value equals R." -/
def VerifyRS (xof : Point → Nat) (hashM : Msg → Scalar) (pub : Point)
    (m : Msg) (R S : Nat) : Bool :=
  if R = 0 ∨ S = 0 ∨ N ≤ R ∨ N ≤ S then false
  else
    let w : Scalar := (S : Scalar)⁻¹
    let u1 : Scalar := hashM m * w
    let u2 : Scalar := (R : Scalar) * w
    let pt : Point := padd (smul u1 basepoint) (smul u2 pub)
    decide (xof pt % N = R)

/-- C8: for every public key, message and pair (R, S) with R = 0, S = 0,
R ≥ N or S ≥ N, VerifyRS returns false; being a total Bool-valued function
it raises no error for a cryptographically invalid signature. -/
theorem verifyRS_rejects_out_of_range (xof : Point → Nat)
    (hashM : Msg → Scalar) (pub : Point) (m : Msg) (R S : Nat)
    (h : R = 0 ∨ S = 0 ∨ N ≤ R ∨ N ≤ S) :
    VerifyRS xof hashM pub m R S = false := by
  rw [VerifyRS, if_pos h]

theorem verifyRS_rejects_out_of_range_witness :
    VerifyRS (fun P => P.val) (fun _ => 1) 0 [] 0 1 = false :=
  verifyRS_rejects_out_of_range _ _ _ _ 0 1 (Or.inl rfl)

/-- C2: signing then verifying succeeds: if `SignRS` on private scalar d,
nonce k and message m returns the pair (R, S), then `VerifyRS` on the
public key d·Basepoint accepts (R, S) for m.  The group order N is prime in
fact; since that primality is not formalized here, the invertibility of the
nonzero scalars k and S is taken as a hypothesis (`IsUnit`), which is what
nonzeroness modulo the prime N gives. -/
theorem signRS_then_verifyRS (xof : Point → Nat) (hashM : Msg → Scalar)
    (d k : Scalar) (m : Msg) (R S : Nat)
    (hk : IsUnit k) (hsig : SignRS xof hashM d k m = .ok (R, S))
    (hS : IsUnit ((S : Nat) : Scalar)) :
    VerifyRS xof hashM (smul d basepoint) m R S = true := by
  rw [SignRS, if_neg hk.ne_zero] at hsig
  by_cases hR : xof (smul k basepoint) % N = 0
  · rw [if_pos hR] at hsig; exact absurd hsig (by simp)
  · rw [if_neg hR] at hsig
    by_cases hS0 : k⁻¹ * (hashM m + d * ((xof (smul k basepoint) % N : Nat) : Scalar)) = 0
    · rw [if_pos hS0] at hsig; exact absurd hsig (by simp)
    · rw [if_neg hS0] at hsig
      simp only [Except.ok.injEq, Prod.mk.injEq] at hsig
      obtain ⟨hRe, hSe⟩ := hsig
      have hRN : R < N := hRe ▸ Nat.mod_lt _ (Nat.pos_of_ne_zero (NeZero.ne N))
      have hSN : S < N := hSe ▸ ZMod.val_lt _
      have hScast : ((S : Nat) : Scalar) =
          k⁻¹ * (hashM m + d * ((R : Nat) : Scalar)) := by
        rw [← hSe, ZMod.natCast_val, ZMod.cast_id, hRe]
      rw [VerifyRS, if_neg]
      · have hA : (k : Scalar) * ((S : Nat) : Scalar) =
            hashM m + d * ((R : Nat) : Scalar) := by
          rw [hScast, ← mul_assoc, ZMod.mul_inv_of_unit k hk, one_mul]
        have hwS : (((S : Nat) : Scalar))⁻¹ * ((S : Nat) : Scalar) = 1 :=
          ZMod.inv_mul_of_unit _ hS
        have hpt : padd (smul (hashM m * ((S : Nat) : Scalar)⁻¹) basepoint)
            (smul (((R : Nat) : Scalar) * ((S : Nat) : Scalar)⁻¹)
              (smul d basepoint)) = smul k basepoint := by
          simp only [padd, smul, basepoint, mul_one]
          have : hashM m * ((S : Nat) : Scalar)⁻¹ +
              ((R : Nat) : Scalar) * ((S : Nat) : Scalar)⁻¹ * d =
              ((S : Nat) : Scalar)⁻¹ * (hashM m + d * ((R : Nat) : Scalar)) := by
            ring
          rw [this, ← hA,
            show ((S : Nat) : Scalar)⁻¹ * (k * ((S : Nat) : Scalar)) =
              k * (((S : Nat) : Scalar)⁻¹ * ((S : Nat) : Scalar)) from by ring,
            hwS, mul_one]
        simp only [decide_eq_true_eq]
        rw [hpt, ← hRe]
      · push_neg
        refine ⟨?_, ?_, by omega, by omega⟩
        · rw [← hRe]; exact hR
        · intro hzero
          rw [hzero] at hS
          rw [Nat.cast_zero] at hS
          exact (by simpa using hS.ne_zero : False)

theorem signRS_then_verifyRS_witness :
    VerifyRS (fun P => ZMod.val P) (fun _ => 1) (smul 0 basepoint) [] 1 1 =
      true := by
  have h1N : (1 : Nat) < N := Fact.out
  have hsig : SignRS (fun P => ZMod.val P) (fun _ => 1) 0 1 [] = .ok (1, 1) := by
    rw [SignRS, if_neg (one_ne_zero)]
    simp only [smul, basepoint, mul_one, ZMod.val_one, Nat.mod_eq_of_lt h1N]
    rw [if_neg (one_ne_zero)]
    simp only [zero_mul, add_zero, ZMod.inv_one, one_mul]
    rw [if_neg (one_ne_zero), ZMod.val_one]
  exact signRS_then_verifyRS (fun P => ZMod.val P) (fun _ => 1) 0 1 [] 1 1
    isUnit_one hsig (by rw [Nat.cast_one]; exact isUnit_one)

/-- Big-endian value of a byte string (most significant byte first). -/
def fromBytesBE : List Nat → Nat
  | [] => 0
  | b :: bs => b * 256 ^ bs.length + fromBytesBE bs

/-- Little-endian encoding of a value into n bytes. -/
def toBytesLE : Nat → Nat → List Nat
  | 0, _ => []
  | n + 1, d => d % 256 :: toBytesLE n (d / 256)

/-- Little-endian value of a byte string (least significant byte first). -/
def fromBytesLE : List Nat → Nat
  | [] => 0
  | b :: bs => b + 256 * fromBytesLE bs

theorem fromBytesLE_toBytesLE : ∀ (n d : Nat),
    fromBytesLE (toBytesLE n d) = d % 256 ^ n := by
  intro n
  induction n with
  | zero => intro d; simp [toBytesLE, fromBytesLE, Nat.mod_one]
  | succ n ih =>
    intro d
    rw [toBytesLE, fromBytesLE, ih, pow_succ', Nat.mod_mul]

/-- Modelled from the spec: `ParseSignature` (not under src/) — "fails with
InvalidLength unless the input is exactly 64 bytes ... and otherwise always
succeeds syntactically"; the signature encoding is "64 bytes, big-endian R
(32 bytes) concatenated with big-endian S (32 bytes)". -/
def ParseSignature (bs : List Nat) : Except Err (Nat × Nat) :=
  if bs.length ≠ 64 then .error .InvalidLength
  else .ok (fromBytesBE (bs.take 32), fromBytesBE (bs.drop 32))

/-- C3: ParseSignature fails with InvalidLength for every buffer whose
length is not exactly 64 bytes, and succeeds syntactically on every 64-byte
buffer. -/
theorem parseSignature_length (bs : List Nat) :
    (bs.length ≠ 64 → ParseSignature bs = .error Err.InvalidLength) ∧
      (bs.length = 64 → (ParseSignature bs).isOk = true) := by
  constructor
  · intro h
    rw [ParseSignature, if_pos h]
  · intro h
    rw [ParseSignature, if_neg (by rw [h]; exact fun hc => hc rfl)]
    rfl

theorem parseSignature_length_witness :
    (ParseSignature (List.replicate 63 0) = .error Err.InvalidLength) ∧
      (ParseSignature (List.replicate 65 0) = .error Err.InvalidLength) ∧
      (ParseSignature (List.replicate 64 0)).isOk = true :=
  ⟨(parseSignature_length (List.replicate 63 0)).1 (by simp),
   (parseSignature_length (List.replicate 65 0)).1 (by simp),
   (parseSignature_length (List.replicate 64 0)).2 (by simp)⟩

/-- Modelled from the spec: `PrivateKey.Serialize` (not under src/) — the
"private scalar encoding: 32 bytes, little-endian, representing a value in
[0, N)" of the key's scalar D. -/
def Serialize (d : Nat) : List Nat := toBytesLE 32 d

/-- Modelled from the spec: `PrivKeyFromScalar` (not under src/) —
"interprets 32 bytes as a scalar, fails with InvalidScalar if not already
reduced modulo N or if it falls outside the accepted range for this API";
a private key owns a scalar D with 0 < D < N, so zero is outside the
accepted range. -/
def PrivKeyFromScalar (bs : List Nat) : Except Err Nat :=
  if bs.length ≠ 32 then .error .InvalidScalar
  else
    let d := fromBytesLE bs
    if d = 0 ∨ N ≤ d then .error .InvalidScalar
    else .ok d

/-- C6: for every valid private key (a scalar D with 0 < D < N),
serialization round-trips through the scalar constructor:
PrivKeyFromScalar (Serialize D) succeeds and returns the same scalar D. -/
theorem privKeyFromScalar_roundtrip (d : Nat) (h0 : 0 < d) (hN : d < N) :
    PrivKeyFromScalar (Serialize d) = .ok d := by
  have hlen : (Serialize d).length = 32 := by
    rw [Serialize]
    have : ∀ (n x : Nat), (toBytesLE n x).length = n := by
      intro n
      induction n with
      | zero => intro x; rfl
      | succ n ih => intro x; rw [toBytesLE, List.length_cons, ih]
    exact this 32 d
  have hval : fromBytesLE (Serialize d) = d := by
    rw [Serialize, fromBytesLE_toBytesLE]
    exact Nat.mod_eq_of_lt (lt_trans hN (by norm_num [N]))
  rw [PrivKeyFromScalar, if_neg (by rw [hlen]; exact fun hc => hc rfl)]
  simp only [hval]
  rw [if_neg (by push_neg; exact ⟨Nat.pos_iff_ne_zero.mp h0, hN⟩)]

theorem privKeyFromScalar_roundtrip_witness :
    PrivKeyFromScalar (Serialize 1) = .ok 1 :=
  privKeyFromScalar_roundtrip 1 (by decide) (by norm_num [N])

/-- Modelled from the spec: `ParsePubKey` (not under src/) — "fails with
InvalidLength if the input is not exactly 32 bytes and with InvalidEncoding
if decoding (§4.3) fails or the result is not a curve point".  The point
decoder is a parameter. -/
def ParsePubKey {P : Type} (decodePoint : List Nat → Option P)
    (bs : List Nat) : Except Err P :=
  if bs.length ≠ 32 then .error .InvalidLength
  else
    match decodePoint bs with
    | some pt => .ok pt
    | none => .error .InvalidEncoding

/-- C7: ParsePubKey fails with InvalidLength for every buffer whose length
is not exactly 32 bytes — in particular for 33-byte and 31-byte buffers. -/
theorem parsePubKey_length {P : Type} (decodePoint : List Nat → Option P)
    (bs : List Nat) (h : bs.length ≠ 32) :
    ParsePubKey decodePoint bs = .error Err.InvalidLength := by
  rw [ParsePubKey, if_pos h]

theorem parsePubKey_length_witness :
    ParsePubKey (P := Unit) (fun _ => none) (List.replicate 33 0) =
        .error Err.InvalidLength ∧
      ParsePubKey (P := Unit) (fun _ => none) (List.replicate 31 0) =
        .error Err.InvalidLength :=
  ⟨parsePubKey_length (fun _ => none) (List.replicate 33 0) (by simp),
   parsePubKey_length (fun _ => none) (List.replicate 31 0) (by simp)⟩

end Edwards25519
